import Mathlib

/-!
Verification of the request-execution core of a Tezos RPC client
(`gotezos.go`).  Go strings and byte slices are modelled as `List Char`
(the payloads of interest are ASCII); fallible Go code returns `Option`
or `Except`; a Go panic (out-of-range index) is modelled by the
`Fault` error of an `Except`.
-/

/-- Models Go `strings.HasPrefix pat s` (here `hasPfx pat s`). -/
def hasPfx : List Char → List Char → Bool
  | [], _ => true
  | _ :: _, [] => false
  | p :: ps, c :: cs => (c = p) && hasPfx ps cs

/-- Models Go `strings.Contains s pat`: `pat` occurs as a contiguous
substring of `s`. -/
def containsSub (s pat : List Char) : Bool :=
  hasPfx pat s ||
    (match s with
     | [] => false
     | _ :: rest => containsSub rest pat)

/-- If `p` is a literal prefix of the input, return the remainder. -/
def stripPfx : List Char → List Char → Option (List Char)
  | [], s => some s
  | _ :: _, [] => none
  | p :: ps, c :: cs => if c = p then stripPfx ps cs else none

/-- `RPCError` struct of the source: one `kind`/`error` record of the
node's error payload. -/
structure RPCError where
  kind : List Char
  error : List Char
deriving DecidableEq

/-- Scan the contents of a JSON string up to its closing quote.
Escape sequences are outside the modelled fragment (a backslash stops
the scan with failure). -/
def scanStr : List Char → Option (List Char × List Char)
  | [] => none
  | c :: rest =>
    if c = '"' then some ([], rest)
    else if c = '\\' then none
    else
      match scanStr rest with
      | none => none
      | some (s, r) => some (c :: s, r)

/-- The literal characters `{"kind":"` opening a serialized record. -/
def objPfx : List Char := ['\x7b', '"', 'k', 'i', 'n', 'd', '"', ':', '"']

/-- The literal characters `","error":"` between the two fields
(after the kind string's closing quote has been consumed). -/
def midPfx : List Char := [',', '"', 'e', 'r', 'r', 'o', 'r', '"', ':', '"']

/-- The characters of the word `error` (the sentinel substring the
classifier scans for, and the JSON key of the message field). -/
def errWord : List Char := ['e', 'r', 'r', 'o', 'r']

/-- Parse one serialized `RPCError` object, returning it and the rest
of the input. -/
def parseObj (s : List Char) : Option (RPCError × List Char) :=
  match stripPfx objPfx s with
  | none => none
  | some s1 =>
    match scanStr s1 with
    | none => none
    | some (k, s2) =>
      match stripPfx midPfx s2 with
      | none => none
      | some s3 =>
        match scanStr s3 with
        | none => none
        | some (v, s4) =>
          match s4 with
          | '\x7d' :: rest => some (⟨k, v⟩, rest)
          | _ => none

/-- Parse a comma-separated run of serialized records (fuel-bounded;
each step consumes one unit of fuel). -/
def parseElems : Nat → List Char → Option (List RPCError × List Char)
  | 0, _ => none
  | fuel + 1, s =>
    match parseObj s with
    | none => none
    | some (e, rest) =>
      match rest with
      | ',' :: rest2 =>
        (match parseElems fuel rest2 with
         | none => none
         | some (es, r) => some (e :: es, r))
      | _ => some ([e], rest)

/-- Models `json.Unmarshal` of a byte slice into `[]RPCError`,
restricted to the canonical compact serialization of such a slice
(the payload format of §6 of the spec): a JSON array of records with
string fields `kind` and `error`, or `null`.  Whitespace, escape
sequences, reordered or extra object fields are outside the modelled
fragment and are rejected. -/
def unmarshalRPCErrors (s : List Char) : Except Unit (List RPCError) :=
  match s with
  | '[' :: rest =>
    if rest = [']'] then .ok []
    else
      match parseElems rest.length rest with
      | some (es, [']']) => .ok es
      | _ => .error ()
  | _ => if s = ['n', 'u', 'l', 'l'] then .ok [] else .error ()

/-- A Go runtime fault (panic); here the only one the core can raise:
an out-of-range index. -/
inductive Fault where
  | indexOutOfRange
deriving DecidableEq

/-- The error values the core produces.  `wrap` models
`errors.Wrap(cause, msg)` of `github.com/pkg/errors`; `fetchError` is
an opaque error produced by a collaborator (transport or bootstrap
fetch); `jsonError` stands for a `json.Unmarshal` failure (its message
is not modelled). -/
inductive GoErr where
  | rpcError (kind error : List Char)
  | httpStatusError (code : Nat) (body : List Char)
  | jsonError
  | fetchError (msg : List Char)
  | wrap (msg : List Char) (cause : GoErr)
deriving DecidableEq

/-- The `Error()` string of a `GoErr`.  `rpcError` renders
`fmt.Errorf("rpc error (%s): %s", kind, error)`; `httpStatusError`
renders `fmt.Errorf("response returned code %d with body %s", ...)`;
`wrap` renders `msg + ": " + cause.Error()` as `pkg/errors` does. -/
def GoErr.message : GoErr → List Char
  | .rpcError k e =>
    "rpc error (".toList ++ k ++ "): ".toList ++ e
  | .httpStatusError code body =>
    "response returned code ".toList ++ Nat.toDigits 10 code
      ++ " with body ".toList ++ body
  | .jsonError => "json unmarshal failure".toList
  | .fetchError m => m
  | .wrap m c => m ++ ": ".toList ++ GoErr.message c

/-- The classifier's last step (source line 189): build the surfaced
error from the decode result.  On a decoded empty slice the source
evaluates `rpcErrors[0]`, an out-of-range index: a fault. -/
def surfaceRPCErrors (res : Except Unit (List RPCError)) :
    Except Fault (Option GoErr) :=
  match res with
  | .error _ => .ok (some (.wrap "could not unmarshal rpc error".toList .jsonError))
  | .ok [] => .error .indexOutOfRange
  | .ok (e :: _) => .ok (some (.rpcError e.kind e.error))

/-- `handleRPCError` (source lines 182-192): scan the raw body for the
substring `error`; when found, decode it as `[]RPCError` and surface
the first entry (or the wrapped decode failure). -/
def handleRPCError (resp : List Char) : Except Fault (Option GoErr) :=
  if containsSub resp errWord then
    surfaceRPCErrors (unmarshalRPCErrors resp)
  else
    .ok none

/-- The transport outcome seen by `do`: a failure of `client.Do`, a
failure while reading the body (with the partial bytes), or a fully
read response. -/
inductive TransportResult where
  | failure (cause : GoErr)
  | readFailure (partialBody : List Char) (cause : GoErr)
  | response (statusCode : Nat) (body : List Char)
deriving DecidableEq

/-- `do` (source lines 148-171), given the transport outcome of the
request.  The Go signature `([]byte, error)` becomes
`Option (List Char) × Option GoErr` (`none` = nil); a panic inside the
classifier propagates as the `Fault`. -/
def doExec : TransportResult → Except Fault (Option (List Char) × Option GoErr)
  | .failure cause =>
    .ok (none, some (.wrap "failed to complete request".toList cause))
  | .readFailure partialBody cause =>
    .ok (some partialBody, some (.wrap "could not read response body".toList cause))
  | .response code body =>
    if code ≠ 200 then
      .ok (some body, some (.httpStatusError code body))
    else
      match handleRPCError body with
      | .error f => .error f
      | .ok (some e) => .ok (some body, some e)
      | .ok none => .ok (some body, none)

/-- The errors `handleRPCError` can produce, i.e. the protocol-error
classification of a response body. -/
def isProtocolErr : GoErr → Bool
  | .rpcError _ _ => true
  | .wrap m .jsonError => m = "could not unmarshal rpc error".toList
  | _ => false

/-- Step 2 of `cleanseHost` (source lines 198-200): prefix `http://`
unless an explicit scheme is already present. -/
def schemeStep (h : List Char) : List Char :=
  if hasPfx "http://".toList h || hasPfx "https://".toList h then h
  else "http://".toList ++ h

/-- `cleanseHost` (source lines 194-202).  The source reads
`host[len(host)-1]`, an out-of-range index when `host` is empty:
modelled as `none`.  Otherwise one trailing `/` is dropped and
`schemeStep` applied. -/
def cleanseHost (host : List Char) : Option (List Char) :=
  match host.getLast? with
  | none => none
  | some c => some (schemeStep (if c = '/' then host.dropLast else host))

/-- Modelled from the spec: the network-constants record fetched at
bootstrap (defined outside this source file); opaque here. -/
structure Constants where
  raw : List Char
deriving DecidableEq

/-- Modelled from the spec: the chain head, identified by a hash
(defined outside this source file). -/
structure Block where
  hash : List Char
deriving DecidableEq

/-- The `GoTezos` struct: the normalized host and the cached network
constants (`none` = the Go nil pointer, i.e. unset).  The transport
client field is not modelled. -/
structure GoTezos where
  host : List Char
  networkConstants : Option Constants
deriving DecidableEq

/-- The fixed message wrapping both bootstrap failures
(source lines 79 and 84). -/
def initErrMsg : List Char :=
  "could not initialize library with network constants".toList

/-- `New` (source lines 63-89).  The two bootstrap RPCs (`Head` and
`Constants`, defined outside this file and performing network I/O) are
supplied as oracle arguments.  The Go return `(*GoTezos, error)`
becomes `Option GoTezos × Option GoErr`; the `cleanseHost` panic on an
empty host propagates as the `Fault`. -/
def New (host : List Char) (fetchHead : Except GoErr Block)
    (fetchConstants : List Char → Except GoErr Constants) :
    Except Fault (Option GoTezos × Option GoErr) :=
  match cleanseHost host with
  | none => .error .indexOutOfRange
  | some h =>
    match fetchHead with
    | .error e => .ok (some ⟨h, none⟩, some (.wrap initErrMsg e))
    | .ok block =>
      match fetchConstants block.hash with
      | .error e => .ok (some ⟨h, none⟩, some (.wrap initErrMsg e))
      | .ok c => .ok (some ⟨h, some c⟩, none)

/-- The `rpcOptions` struct: one key/value query parameter. -/
structure rpcOptions where
  Key : List Char
  Value : List Char
deriving DecidableEq

/-- One entry of Go's `url.Values` (a key with its ordered values). -/
abbrev Values := List (List Char × List (List Char))

/-- `url.Values.Add`: append the value to the key's slice (the key is
created at the end when absent). -/
def valuesAdd : Values → List Char → List Char → Values
  | [], k, v => [(k, [v])]
  | (k0, vs0) :: rest, k, v =>
    if k0 = k then (k0, vs0 ++ [v]) :: rest
    else (k0, vs0) :: valuesAdd rest k v

/-- Lookup of a key's value slice in a `Values` (Go map read). -/
def valuesGet : Values → List Char → List (List Char)
  | [], _ => []
  | (k0, vs0) :: rest, k => if k0 = k then vs0 else valuesGet rest k

/-- `req.URL.Query()` on a request with no existing query, followed by
the `q.Add` loop of `constructQueryParams` (source lines 173-177). -/
def buildValues (opts : List rpcOptions) : Values :=
  opts.foldl (fun vs o => valuesAdd vs o.Key o.Value) []

/-- Whether Go's `url.QueryEscape` leaves the byte unescaped
(ASCII alphanumerics and `-._~`). -/
def unreservedChar (c : Char) : Bool :=
  c.isAlphanum || c = '-' || c = '_' || c = '.' || c = '~'

/-- Hex digits (upper case) of a byte, as emitted by Go's escaper. -/
def hexDigit (n : Nat) : Char :=
  if n < 10 then Char.ofNat ('0'.toNat + n)
  else Char.ofNat ('A'.toNat + (n - 10))

/-- Escape one character: unreserved bytes unchanged, space becomes
`+`, anything else `%XX`.  The model covers single-byte (ASCII)
characters. -/
def queryEscapeChar (c : Char) : List Char :=
  if unreservedChar c then [c]
  else if c = ' ' then ['+']
  else ['%', hexDigit (c.toNat % 256 / 16), hexDigit (c.toNat % 16)]

/-- Go's `url.QueryEscape` on ASCII text. -/
def queryEscape : List Char → List Char
  | [] => []
  | c :: cs => queryEscapeChar c ++ queryEscape cs

/-- Lexicographic byte order on keys (`sort.Strings`), as a Bool. -/
def strLe : List Char → List Char → Bool
  | [], _ => true
  | _ :: _, [] => false
  | a :: as, b :: bs => if a < b then true else if a = b then strLe as bs else false

/-- The order `url.Values.Encode` sorts its entries by: `strLe` on
the keys. -/
def pairLe (a b : List Char × List (List Char)) : Prop :=
  strLe a.1 b.1 = true

instance : DecidableRel pairLe := fun a b =>
  inferInstanceAs (Decidable (strLe a.1 b.1 = true))

/-- `Encode` sorts the map's keys (`sort.Strings(keys)`). -/
def sortByKey (vs : Values) : Values := List.insertionSort pairLe vs

/-- The `key=value` strings written by `Encode`, in emission order:
sorted keys, each key's values in insertion order. -/
def querySegsOf : Values → List (List Char)
  | [] => []
  | p :: ps =>
    p.2.map (fun v => queryEscape p.1 ++ '=' :: queryEscape v) ++ querySegsOf ps

/-- `Encode`'s buffer logic: `&` between consecutive written pairs. -/
def joinAmp : List (List Char) → List Char
  | [] => []
  | [x] => x
  | x :: xs => x ++ '&' :: joinAmp xs

/-- `url.Values.Encode` (called at source line 179). -/
def encodeValues (vs : Values) : List Char := joinAmp (querySegsOf (sortByKey vs))

/-- `constructQueryParams` (source lines 173-180) applied to a request
with no existing query: the `RawQuery` it stores on the request. -/
def constructQueryParams (opts : List rpcOptions) : List Char :=
  encodeValues (buildValues opts)

/-- Whether a string's last two characters are both `/`. -/
def endsTwoSlash (s : List Char) : Bool :=
  (s.getLast? == some '/') && (s.dropLast.getLast? == some '/')

theorem hasPfx_append (p t : List Char) : hasPfx p (p ++ t) = true := by
  induction p with
  | nil => rfl
  | cons a as ih => simp [hasPfx, ih]

theorem containsSub_cons (c : Char) (s pat : List Char) :
    containsSub (c :: s) pat = (hasPfx pat (c :: s) || containsSub s pat) := rfl

theorem containsSub_of_append (pre pat post : List Char) :
    containsSub (pre ++ (pat ++ post)) pat = true := by
  induction pre with
  | nil =>
    rw [List.nil_append, containsSub.eq_def]
    simp [hasPfx_append]
  | cons c cs ih =>
    rw [List.cons_append, containsSub_cons, ih]
    simp

theorem containsSub_append_right (s t pat : List Char)
    (h : containsSub t pat = true) : containsSub (s ++ t) pat = true := by
  induction s with
  | nil => simpa using h
  | cons c cs ih =>
    rw [List.cons_append, containsSub_cons, ih]
    simp

/-- C3: for every response whose status code is not 200, `do` returns
an error carrying the exact status code (its message contains the
code's decimal rendering), and the body bytes already read are
returned alongside the error, regardless of body content. -/
theorem doExec_non200_status_error (code : Nat) (body : List Char) (h : code ≠ 200) :
    doExec (.response code body) = .ok (some body, some (.httpStatusError code body)) ∧
    containsSub (GoErr.message (.httpStatusError code body)) (Nat.toDigits 10 code) = true := by
  constructor
  · simp [doExec, h]
  · have hm : GoErr.message (.httpStatusError code body) =
        "response returned code ".toList ++
          (Nat.toDigits 10 code ++ (" with body ".toList ++ body)) := by
      simp [GoErr.message]
    rw [hm]
    exact containsSub_of_append _ _ _

theorem doExec_non200_status_error_witness :
    doExec (.response 404 "nope".toList) =
      .ok (some "nope".toList, some (.httpStatusError 404 "nope".toList)) ∧
    containsSub (GoErr.message (.httpStatusError 404 "nope".toList))
      (Nat.toDigits 10 404) = true :=
  doExec_non200_status_error 404 "nope".toList (by decide)

/-- C2: a 200-status body without the substring `error` is returned
with no error; conversely, a protocol-error classification only
arises from a 200-status body whose raw text contains `error`. -/
theorem doExec_success_iff_no_error_substring :
    (∀ body : List Char, containsSub body errWord = false →
      doExec (.response 200 body) = .ok (some body, none)) ∧
    (∀ (code : Nat) (body : List Char) (e : GoErr),
      doExec (.response code body) = .ok (some body, some e) →
      isProtocolErr e = true →
      code = 200 ∧ containsSub body errWord = true) := by
  constructor
  · intro body h
    simp [doExec, handleRPCError, h]
  · intro code body e heq hp
    by_cases hc : code = 200
    · subst hc
      refine ⟨rfl, ?_⟩
      by_cases hcont : containsSub body errWord = true
      · exact hcont
      · exfalso
        rw [Bool.not_eq_true] at hcont
        simp [doExec, handleRPCError, hcont] at heq
    · exfalso
      simp [doExec, hc] at heq
      rw [← heq] at hp
      simp [isProtocolErr] at hp

theorem doExec_success_iff_no_error_substring_witness :
    doExec (.response 200 "\x7b\"balance\":\"100\"\x7d".toList) =
      .ok (some "\x7b\"balance\":\"100\"\x7d".toList, none) :=
  doExec_success_iff_no_error_substring.1 _ (by decide)

/-- C10: `cleanseHost` is total on non-empty hosts (the index
`len(host)-1` is in bounds and a value is returned), while on the
empty host the index is out of bounds, so `New ""` faults instead of
returning an error value. -/
theorem cleanseHost_nonempty_total :
    (∀ host : List Char, host ≠ [] →
      host.length - 1 < host.length ∧ (cleanseHost host).isSome = true) ∧
    cleanseHost [] = none ∧
    (∀ (fetchHead : Except GoErr Block)
       (fetchConstants : List Char → Except GoErr Constants),
      New [] fetchHead fetchConstants = .error .indexOutOfRange) := by
  refine ⟨fun host h => ⟨?_, ?_⟩, rfl, fun _ _ => rfl⟩
  · have : 0 < host.length := List.length_pos.mpr h
    omega
  · have h2 : host.getLast?.isSome := List.getLast?_isSome.mpr h
    rcases Option.isSome_iff_exists.mp h2 with ⟨c, hc⟩
    simp [cleanseHost, hc]

theorem cleanseHost_nonempty_total_witness :
    "node.example".toList.length - 1 < "node.example".toList.length ∧
    (cleanseHost "node.example".toList).isSome = true :=
  cleanseHost_nonempty_total.1 "node.example".toList (by decide)

theorem cleanseHost_exists (host : List Char) (h : host ≠ []) :
    ∃ r, cleanseHost host = some r := by
  rcases Option.isSome_iff_exists.mp (List.getLast?_isSome.mpr h) with ⟨c, hc⟩
  refine ⟨schemeStep (if c = '/' then host.dropLast else host), ?_⟩
  simp [cleanseHost, hc]

/-- C5: for every non-empty host, if either bootstrap fetch fails,
`New` still returns a non-nil partially-initialized client together
with a wrapped non-nil error, and the cached constants are left
unset. -/
theorem New_partial_client_on_fetch_failure (host : List Char) (hne : host ≠ [])
    (cause : GoErr) (fetchConstants : List Char → Except GoErr Constants)
    (blk : Block) :
    (∃ h, cleanseHost host = some h ∧
      New host (.error cause) fetchConstants =
        .ok (some { host := h, networkConstants := none },
             some (.wrap initErrMsg cause))) ∧
    (∃ h, cleanseHost host = some h ∧
      New host (.ok blk) (fun _ => .error cause) =
        .ok (some { host := h, networkConstants := none },
             some (.wrap initErrMsg cause))) := by
  rcases cleanseHost_exists host hne with ⟨r, hr⟩
  refine ⟨⟨r, hr, ?_⟩, ⟨r, hr, ?_⟩⟩ <;> simp [New, hr]

theorem New_partial_client_on_fetch_failure_witness :
    (∃ h, cleanseHost "example.com".toList = some h ∧
      New "example.com".toList (.error (.fetchError "boom".toList))
          (fun _ => .ok ⟨"c".toList⟩) =
        .ok (some { host := h, networkConstants := none },
             some (.wrap initErrMsg (.fetchError "boom".toList)))) ∧
    (∃ h, cleanseHost "example.com".toList = some h ∧
      New "example.com".toList (.ok ⟨"B".toList⟩)
          (fun _ => .error (.fetchError "boom".toList)) =
        .ok (some { host := h, networkConstants := none },
             some (.wrap initErrMsg (.fetchError "boom".toList)))) :=
  New_partial_client_on_fetch_failure "example.com".toList (by decide)
    (.fetchError "boom".toList) (fun _ => .ok ⟨"c".toList⟩) ⟨"B".toList⟩

/-- C4 counterexample: with the same underlying cause, a head-fetch
failure and a constants-fetch failure yield byte-for-byte the same
returned error, so the error cannot name which of the two steps
failed. -/
theorem New_step_indistinguishable_counterexample :
    New "h".toList (.error (.fetchError "boom".toList)) (fun _ => .ok ⟨"c".toList⟩) =
      .ok (some { host := "http://h".toList, networkConstants := none },
           some (.wrap initErrMsg (.fetchError "boom".toList))) ∧
    New "h".toList (.ok ⟨"B".toList⟩) (fun _ => .error (.fetchError "boom".toList)) =
      .ok (some { host := "http://h".toList, networkConstants := none },
           some (.wrap initErrMsg (.fetchError "boom".toList))) :=
  ⟨rfl, rfl⟩

/-- C4 (amended): a failure of either bootstrap step aborts `New` with
the underlying cause wrapped in the same fixed message
`could not initialize library with network constants`; the cause is
preserved (in the wrap and in the rendered message), but the message
is identical for both steps, so it does not name which step failed. -/
theorem New_bootstrap_wrap_fixed_message (host : List Char) (hne : host ≠ [])
    (e1 e2 : GoErr) (fetchConstants : List Char → Except GoErr Constants)
    (blk : Block) :
    ∃ h, cleanseHost host = some h ∧
      New host (.error e1) fetchConstants =
        .ok (some { host := h, networkConstants := none }, some (.wrap initErrMsg e1)) ∧
      New host (.ok blk) (fun _ => .error e2) =
        .ok (some { host := h, networkConstants := none }, some (.wrap initErrMsg e2)) ∧
      GoErr.message (.wrap initErrMsg e1) =
        initErrMsg ++ ": ".toList ++ GoErr.message e1 := by
  rcases cleanseHost_exists host hne with ⟨r, hr⟩
  exact ⟨r, hr, by simp [New, hr], by simp [New, hr], rfl⟩

theorem New_bootstrap_wrap_fixed_message_witness :
    ∃ h, cleanseHost "n.example".toList = some h ∧
      New "n.example".toList (.error (.fetchError "down".toList))
          (fun _ => .ok ⟨"c".toList⟩) =
        .ok (some { host := h, networkConstants := none },
             some (.wrap initErrMsg (.fetchError "down".toList))) ∧
      New "n.example".toList (.ok ⟨"B".toList⟩)
          (fun _ => .error (.fetchError "lost".toList)) =
        .ok (some { host := h, networkConstants := none },
             some (.wrap initErrMsg (.fetchError "lost".toList))) ∧
      GoErr.message (.wrap initErrMsg (.fetchError "down".toList)) =
        initErrMsg ++ ": ".toList ++ GoErr.message (.fetchError "down".toList) :=
  New_bootstrap_wrap_fixed_message "n.example".toList (by decide)
    (.fetchError "down".toList) (.fetchError "lost".toList)
    (fun _ => .ok ⟨"c".toList⟩) ⟨"B".toList⟩

/-- C9: the spec requires a 200 body that decodes to an *empty* error
sequence to be treated as if no error occurred; the source instead
indexes `rpcErrors[0]` unconditionally, so on an empty decoded slice
the classifier faults (index out of range) rather than returning
without fault.  (No raw JSON body containing the substring `error`
decodes to an empty slice, so the state is unreachable through real
payloads.) -/
theorem surfaceRPCErrors_empty_faults :
    surfaceRPCErrors (.ok []) = .error .indexOutOfRange := rfl

theorem hasPfx_nil_right (p : List Char) (h : hasPfx p [] = true) : p = [] := by
  cases p with
  | nil => rfl
  | cons a as => simp [hasPfx] at h

theorem hasPfx_length_le (p s : List Char) (h : hasPfx p s = true) :
    p.length ≤ s.length := by
  induction p generalizing s with
  | nil => simp
  | cons a as ih =>
    cases s with
    | nil => simp [hasPfx] at h
    | cons b bs =>
      simp only [hasPfx, Bool.and_eq_true, decide_eq_true_eq] at h
      have := ih bs h.2
      simp only [List.length_cons]
      omega

theorem hasPfx_eq_full (p s : List Char) (h : hasPfx p s = true)
    (hlen : s.length ≤ p.length) : s = p := by
  induction p generalizing s with
  | nil =>
    cases s with
    | nil => rfl
    | cons b bs => simp at hlen
  | cons a as ih =>
    cases s with
    | nil => simp [hasPfx] at h
    | cons b bs =>
      simp only [hasPfx, Bool.and_eq_true, decide_eq_true_eq] at h
      simp only [List.length_cons] at hlen
      rw [h.1, ih bs h.2 (by omega)]

theorem hasPfx_dropLast (p s : List Char) (h : hasPfx p s = true)
    (hlt : p.length < s.length) : hasPfx p s.dropLast = true := by
  induction p generalizing s with
  | nil => cases s.dropLast <;> rfl
  | cons a as ih =>
    cases s with
    | nil => simp at hlt
    | cons b bs =>
      cases bs with
      | nil =>
        simp only [List.length_cons, List.length_nil] at hlt
        omega
      | cons b2 bs2 =>
        simp only [hasPfx, Bool.and_eq_true, decide_eq_true_eq] at h
        rw [List.dropLast_cons₂]
        simp only [hasPfx, Bool.and_eq_true, decide_eq_true_eq]
        refine ⟨h.1, ih (b2 :: bs2) h.2 ?_⟩
        simp only [List.length_cons] at hlt ⊢
        omega

theorem schemeStep_of_pfx_http (s : List Char)
    (h : hasPfx "http://".toList s = true) : schemeStep s = s := by
  unfold schemeStep
  rw [h]
  simp

theorem schemeStep_of_pfx_https (s : List Char)
    (h : hasPfx "https://".toList s = true) : schemeStep s = s := by
  unfold schemeStep
  rw [h]
  simp

theorem schemeStep_pfx (s : List Char) :
    hasPfx "http://".toList (schemeStep s) = true ∨
    hasPfx "https://".toList (schemeStep s) = true := by
  cases hb : hasPfx "http://".toList s with
  | true => left; rw [schemeStep_of_pfx_http s hb]; exact hb
  | false =>
    cases hb2 : hasPfx "https://".toList s with
    | true => right; rw [schemeStep_of_pfx_https s hb2]; exact hb2
    | false =>
      left
      unfold schemeStep
      rw [hb, hb2]
      simp only [Bool.or_self, if_false, Bool.false_eq_true]
      exact hasPfx_append _ _

theorem schemeStep_getLast_ne (s : List Char) (h0 : s ≠ [])
    (h1 : s.getLast? ≠ some '/') : (schemeStep s).getLast? ≠ some '/' := by
  unfold schemeStep
  split
  · exact h1
  · rw [List.getLast?_append_of_ne_nil _ h0]
    exact h1

theorem cleanseHost_keeps_pfx (p host : List Char)
    (hstep : ∀ s, hasPfx p s = true → schemeStep s = s)
    (hp : hasPfx p host = true) (hne : host ≠ p) (hpne : p ≠ []) :
    ∃ r, cleanseHost host = some r ∧ hasPfx p r = true := by
  have hne0 : host ≠ [] := by
    intro h0
    rw [h0] at hp
    exact hpne (hasPfx_nil_right p hp)
  rcases Option.isSome_iff_exists.mp (List.getLast?_isSome.mpr hne0) with ⟨c, hc⟩
  by_cases hsl : c = '/'
  · have hltlen : p.length < host.length := by
      have hle := hasPfx_length_le p host hp
      rcases Nat.lt_or_ge p.length host.length with hlt | hge
      · exact hlt
      · exact absurd (hasPfx_eq_full p host hp hge) hne
    have hdl : hasPfx p host.dropLast = true := hasPfx_dropLast p host hp hltlen
    refine ⟨host.dropLast, ?_, hdl⟩
    simp [cleanseHost, hc, hsl, hstep _ hdl]
  · refine ⟨host, ?_, hp⟩
    simp [cleanseHost, hc, hsl, hstep _ hp]

/-- C6 counterexample: the degenerate host `https://` (the bare scheme
prefix itself) does not keep its prefix: its trailing slash — part of
the scheme — is stripped and `http://` is prepended. -/
theorem cleanseHost_bare_scheme_counterexample :
    cleanseHost "https://".toList = some "http://https:/".toList ∧
    hasPfx "https://".toList "http://https:/".toList = false :=
  ⟨rfl, rfl⟩

/-- C6 (amended): a non-empty host without scheme or trailing slash
normalizes to `http://` ++ host; exactly one trailing slash is removed
before the scheme step; an existing `http://` or `https://` prefix is
preserved unchanged for every host other than the bare prefix string
itself (for which the slash stripping destroys the scheme). -/
theorem cleanseHost_normalizes :
    (∀ host : List Char, host ≠ [] → host.getLast? ≠ some '/' →
      hasPfx "http://".toList host = false →
      hasPfx "https://".toList host = false →
      cleanseHost host = some ("http://".toList ++ host)) ∧
    (∀ g : List Char, cleanseHost (g ++ ['/']) = some (schemeStep g)) ∧
    (∀ host : List Char, hasPfx "http://".toList host = true →
      host ≠ "http://".toList →
      ∃ r, cleanseHost host = some r ∧ hasPfx "http://".toList r = true) ∧
    (∀ host : List Char, hasPfx "https://".toList host = true →
      host ≠ "https://".toList →
      ∃ r, cleanseHost host = some r ∧ hasPfx "https://".toList r = true) := by
  refine ⟨?_, ?_, ?_, ?_⟩
  · intro host hne hns h1 h2
    rcases Option.isSome_iff_exists.mp (List.getLast?_isSome.mpr hne) with ⟨c, hc⟩
    have hcs : c ≠ '/' := by
      intro h
      rw [h] at hc
      exact hns hc
    have hch : cleanseHost host = some (schemeStep host) := by
      simp [cleanseHost, hc, hcs]
    rw [hch]
    unfold schemeStep
    rw [h1, h2]
    simp
  · intro g
    simp [cleanseHost, List.getLast?_concat, List.dropLast_concat]
  · intro host hp hne
    exact cleanseHost_keeps_pfx "http://".toList host schemeStep_of_pfx_http hp hne
      (by decide)
  · intro host hp hne
    exact cleanseHost_keeps_pfx "https://".toList host schemeStep_of_pfx_https hp hne
      (by decide)

theorem cleanseHost_normalizes_witness :
    cleanseHost "node.example".toList = some ("http://".toList ++ "node.example".toList) ∧
    (∃ r, cleanseHost "https://node".toList = some r ∧
      hasPfx "https://".toList r = true) :=
  ⟨cleanseHost_normalizes.1 "node.example".toList (by decide) (by decide) (by decide)
      (by decide),
   cleanseHost_normalizes.2.2.2 "https://node".toList (by decide) (by decide)⟩

/-- C7 counterexample: the host `a//` normalizes to `http://a/`, which
still ends in a slash — the normalized host does not always lack a
trailing slash. -/
theorem cleanseHost_trailing_slash_counterexample :
    cleanseHost "a//".toList = some "http://a/".toList ∧
    ("http://a/".toList).getLast? = some '/' :=
  ⟨rfl, rfl⟩

/-- C7 (amended): for every non-empty host the normalized result
carries an explicit `http://` or `https://` scheme prefix, and it has
no trailing slash provided the input host does not end in two slashes
and is not the single character `/`. -/
theorem cleanseHost_scheme_and_no_slash (host : List Char) (hne : host ≠ []) :
    ∃ r, cleanseHost host = some r ∧
      (hasPfx "http://".toList r = true ∨ hasPfx "https://".toList r = true) ∧
      (endsTwoSlash host = false → host ≠ ['/'] → r.getLast? ≠ some '/') := by
  rcases Option.isSome_iff_exists.mp (List.getLast?_isSome.mpr hne) with ⟨c, hc⟩
  by_cases hsl : c = '/'
  · refine ⟨schemeStep host.dropLast, by simp [cleanseHost, hc, hsl],
      schemeStep_pfx host.dropLast, ?_⟩
    intro hts hone
    have h2 : host.dropLast.getLast? ≠ some '/' := by
      intro hd
      rw [hsl] at hc
      simp [endsTwoSlash, hc, hd] at hts
    have h3 : host.dropLast ≠ [] := by
      intro h0
      have hrec := List.dropLast_append_getLast? c hc
      rw [h0, List.nil_append, hsl] at hrec
      exact hone hrec.symm
    exact schemeStep_getLast_ne host.dropLast h3 h2
  · refine ⟨schemeStep host, by simp [cleanseHost, hc, hsl],
      schemeStep_pfx host, ?_⟩
    intro _ _
    refine schemeStep_getLast_ne host hne ?_
    rw [hc]
    simp [hsl]

theorem cleanseHost_scheme_and_no_slash_witness :
    ∃ r, cleanseHost "node.example/".toList = some r ∧
      (hasPfx "http://".toList r = true ∨ hasPfx "https://".toList r = true) ∧
      (endsTwoSlash "node.example/".toList = false →
        "node.example/".toList ≠ ['/'] → r.getLast? ≠ some '/') :=
  cleanseHost_scheme_and_no_slash "node.example/".toList (by decide)

/-- The canonical compact JSON serialization of one `kind`/`error`
record (the shape `json.Marshal` produces for the `RPCError` struct). -/
def encodeObj (e : RPCError) : List Char :=
  objPfx ++ e.kind ++ '"' :: (midPfx ++ (e.error ++ ['"', '\x7d']))

/-- Serialization of the remaining records, each preceded by `,`. -/
def encodeTail : List RPCError → List Char
  | [] => []
  | e :: es => ',' :: (encodeObj e ++ encodeTail es)

/-- The canonical JSON array serialization of an `RPCErrors` slice. -/
def encodeRPCErrors : List RPCError → List Char
  | [] => ['[', ']']
  | e :: es => '[' :: (encodeObj e ++ (encodeTail es ++ [']']))

/-- A string whose characters need no JSON escaping (the fragment the
decoder model covers). -/
def safeStr (s : List Char) : Prop := ∀ c ∈ s, c ≠ '"' ∧ c ≠ '\\'

/-- Both fields of the record are escape-free. -/
def jsonSafe (e : RPCError) : Prop := safeStr e.kind ∧ safeStr e.error

instance (s : List Char) : Decidable (safeStr s) :=
  List.decidableBAll (fun c => c ≠ '"' ∧ c ≠ '\\') s

instance (e : RPCError) : Decidable (jsonSafe e) :=
  inferInstanceAs (Decidable (safeStr e.kind ∧ safeStr e.error))

theorem stripPfx_append (p rest : List Char) : stripPfx p (p ++ rest) = some rest := by
  induction p with
  | nil => rfl
  | cons a as ih => simp [stripPfx, ih]

theorem scanStr_append (content rest : List Char) (h : safeStr content) :
    scanStr (content ++ '"' :: rest) = some (content, rest) := by
  induction content with
  | nil => simp [scanStr]
  | cons c cs ih =>
    have hc := h c (List.mem_cons_self c cs)
    simp [scanStr, hc.1, hc.2, ih (fun x hx => h x (List.mem_cons_of_mem c hx))]

theorem parseObj_encode (e : RPCError) (rest : List Char) (h : jsonSafe e) :
    parseObj (encodeObj e ++ rest) = some (e, rest) := by
  have h1 : encodeObj e ++ rest =
      objPfx ++ (e.kind ++ '"' :: (midPfx ++ (e.error ++ '"' :: '\x7d' :: rest))) := by
    simp [encodeObj]
  rw [h1]
  simp only [parseObj, stripPfx_append, scanStr_append _ _ h.1, scanStr_append _ _ h.2]

theorem parseElems_round (es : List RPCError) :
    ∀ (fuel : Nat) (e : RPCError) (rest : List Char),
    jsonSafe e → (∀ x ∈ es, jsonSafe x) → es.length < fuel →
    rest.head? ≠ some ',' →
    parseElems fuel (encodeObj e ++ (encodeTail es ++ rest)) = some (e :: es, rest) := by
  induction es with
  | nil =>
    intro fuel e rest he _ hf hr
    obtain ⟨f, rfl⟩ : ∃ f, fuel = f + 1 := ⟨fuel - 1, by omega⟩
    rw [encodeTail, List.nil_append]
    simp only [parseElems, parseObj_encode e rest he]
    cases rest with
    | nil => rfl
    | cons c cs =>
      have hcc : c ≠ ',' := by
        intro hceq
        rw [hceq] at hr
        exact hr rfl
      split
      · next rest2 heq =>
        injection heq with h1 _
        exact absurd h1 hcc
      · rfl
  | cons e2 es2 ih =>
    intro fuel e rest he hall hf hr
    obtain ⟨f, rfl⟩ : ∃ f, fuel = f + 1 := ⟨fuel - 1, by omega⟩
    have hrw : encodeObj e ++ (encodeTail (e2 :: es2) ++ rest)
        = encodeObj e ++ (',' :: (encodeObj e2 ++ (encodeTail es2 ++ rest))) := by
      simp [encodeTail]
    rw [hrw]
    simp only [parseElems, parseObj_encode e _ he]
    rw [ih f e2 rest (hall e2 (List.mem_cons_self e2 es2))
      (fun x hx => hall x (List.mem_cons_of_mem e2 hx))
      (by simp only [List.length_cons] at hf; omega) hr]

theorem length_le_encodeTail (es : List RPCError) :
    es.length ≤ (encodeTail es).length := by
  induction es with
  | nil => simp [encodeTail]
  | cons e es ih =>
    simp only [encodeTail, List.length_cons, List.length_append]
    omega

theorem unmarshal_encode (e : RPCError) (es : List RPCError)
    (he : jsonSafe e) (hall : ∀ x ∈ es, jsonSafe x) :
    unmarshalRPCErrors (encodeRPCErrors (e :: es)) = .ok (e :: es) := by
  have hbody : encodeRPCErrors (e :: es) =
      '[' :: (encodeObj e ++ (encodeTail es ++ [']'])) := rfl
  rw [hbody]
  have hne : ¬(encodeObj e ++ (encodeTail es ++ [']']) = [']']) := by
    intro hcontra
    have hlen := congrArg List.length hcontra
    simp [encodeObj, objPfx, midPfx, List.length_append] at hlen
  have hfl : es.length < (encodeObj e ++ (encodeTail es ++ [']'])).length := by
    have h1 := length_le_encodeTail es
    simp only [List.length_append, List.length_cons]
    omega
  simp only [unmarshalRPCErrors, if_neg hne,
    parseElems_round es _ e [']'] he hall hfl (by decide)]

theorem contains_error_encode (e : RPCError) (es : List RPCError) :
    containsSub (encodeRPCErrors (e :: es)) errWord = true := by
  have hdec : encodeRPCErrors (e :: es) =
      ('[' :: objPfx ++ e.kind ++ ['"', ',', '"']) ++
        (errWord ++ (['"', ':', '"'] ++
          (e.error ++ ['"', '\x7d'] ++ (encodeTail es ++ [']'])))) := by
    simp [encodeRPCErrors, encodeObj, objPfx, midPfx, errWord]
  rw [hdec]
  exact containsSub_of_append _ _ _

/-- C1: a 200-status response whose body is the JSON array of
`kind`/`error` records `e :: es` makes `do` return the body bytes
together with an error whose message contains the first record's
`kind` and `error` strings; when several records exist, only the
first one is surfaced. -/
theorem doExec_rpc_error_first (e : RPCError) (es : List RPCError)
    (he : jsonSafe e) (hall : ∀ x ∈ es, jsonSafe x) :
    doExec (.response 200 (encodeRPCErrors (e :: es))) =
      .ok (some (encodeRPCErrors (e :: es)), some (.rpcError e.kind e.error)) ∧
    containsSub (GoErr.message (.rpcError e.kind e.error)) e.kind = true ∧
    containsSub (GoErr.message (.rpcError e.kind e.error)) e.error = true := by
  refine ⟨?_, ?_, ?_⟩
  · have hh : handleRPCError (encodeRPCErrors (e :: es)) =
        .ok (some (.rpcError e.kind e.error)) := by
      unfold handleRPCError
      rw [contains_error_encode e es, unmarshal_encode e es he hall]
      rfl
    simp [doExec, hh]
  · have hm : GoErr.message (.rpcError e.kind e.error) =
        "rpc error (".toList ++ (e.kind ++ ("): ".toList ++ e.error)) := by
      simp [GoErr.message]
    rw [hm]
    exact containsSub_of_append _ _ _
  · have hm : GoErr.message (.rpcError e.kind e.error) =
        ("rpc error (".toList ++ e.kind ++ "): ".toList) ++ (e.error ++ []) := by
      simp [GoErr.message]
    rw [hm]
    exact containsSub_of_append _ _ _

theorem doExec_rpc_error_first_witness :
    doExec (.response 200 (encodeRPCErrors
        [⟨"permanent".toList, "boom".toList⟩,
         ⟨"temporary".toList, "later".toList⟩])) =
      .ok (some (encodeRPCErrors
            [⟨"permanent".toList, "boom".toList⟩,
             ⟨"temporary".toList, "later".toList⟩]),
           some (.rpcError "permanent".toList "boom".toList)) ∧
    containsSub (GoErr.message (.rpcError "permanent".toList "boom".toList))
      "permanent".toList = true ∧
    containsSub (GoErr.message (.rpcError "permanent".toList "boom".toList))
      "boom".toList = true :=
  doExec_rpc_error_first ⟨"permanent".toList, "boom".toList⟩
    [⟨"temporary".toList, "later".toList⟩] (by decide) (by decide)

theorem containsSub_cons_of (c : Char) (s pat : List Char)
    (h : containsSub s pat = true) : containsSub (c :: s) pat = true := by
  rw [containsSub_cons, h]
  simp

theorem strLe_total (a b : List Char) : strLe a b = true ∨ strLe b a = true := by
  induction a generalizing b with
  | nil => left; rfl
  | cons x xs ih =>
    cases b with
    | nil => right; rfl
    | cons y ys =>
      rcases lt_trichotomy x y with h | h | h
      · left; simp [strLe, h]
      · subst h
        rcases ih ys with h2 | h2
        · left; simp [strLe, h2]
        · right; simp [strLe, h2]
      · right; simp [strLe, h]

theorem strLe_trans (a b c : List Char) (h1 : strLe a b = true)
    (h2 : strLe b c = true) : strLe a c = true := by
  induction a generalizing b c with
  | nil => rfl
  | cons x xs ih =>
    cases b with
    | nil => simp [strLe] at h1
    | cons y ys =>
      cases c with
      | nil => simp [strLe] at h2
      | cons z zs =>
        by_cases hxy : x < y
        · by_cases hyz : y < z
          · simp [strLe, lt_trans hxy hyz]
          · by_cases heq : y = z
            · subst heq; simp [strLe, hxy]
            · simp [strLe, hyz, heq] at h2
        · by_cases heq : x = y
          · subst heq
            simp only [strLe, lt_self_iff_false, if_false, if_pos rfl] at h1
            by_cases hyz : x < z
            · simp [strLe, hyz]
            · by_cases heq2 : x = z
              · subst heq2
                simp only [strLe, lt_self_iff_false, if_false, if_pos rfl] at h2 ⊢
                exact ih ys zs h1 h2
              · simp [strLe, hyz, heq2] at h2
          · simp [strLe, hxy, heq] at h1

instance : IsTotal (List Char × List (List Char)) pairLe :=
  ⟨fun a b => strLe_total a.1 b.1⟩

instance : IsTrans (List Char × List (List Char)) pairLe :=
  ⟨fun a b c h1 h2 => strLe_trans a.1 b.1 c.1 h1 h2⟩

/-- A string `QueryEscape` leaves untouched. -/
def safeQuery (s : List Char) : Prop := ∀ c ∈ s, unreservedChar c = true

instance (s : List Char) : Decidable (safeQuery s) :=
  List.decidableBAll (fun c => unreservedChar c = true) s

theorem queryEscape_id (s : List Char) (h : safeQuery s) : queryEscape s = s := by
  induction s with
  | nil => rfl
  | cons c cs ih =>
    have hc := h c (List.mem_cons_self c cs)
    simp [queryEscape, queryEscapeChar, hc,
      ih (fun x hx => h x (List.mem_cons_of_mem c hx))]

theorem valuesGet_add (vs : Values) (k' v k : List Char) :
    valuesGet (valuesAdd vs k' v) k =
      valuesGet vs k ++ (if k' = k then [v] else []) := by
  induction vs with
  | nil =>
    by_cases h : k' = k
    · simp [valuesAdd, valuesGet, h]
    · simp [valuesAdd, valuesGet, h]
  | cons p ps ih =>
    obtain ⟨k0, vs0⟩ := p
    by_cases h0 : k0 = k'
    · subst h0
      by_cases hk : k0 = k
      · subst hk; simp [valuesAdd, valuesGet]
      · simp [valuesAdd, valuesGet, hk]
    · have h0' : ¬k' = k0 := fun h => h0 h.symm
      by_cases hk : k0 = k
      · subst hk
        have hk' : ¬k' = k0 := h0'
        simp [valuesAdd, valuesGet, h0, hk']
      · simp [valuesAdd, valuesGet, h0, hk, ih]

theorem valuesGet_fold (opts : List rpcOptions) :
    ∀ (vs : Values) (k : List Char),
    valuesGet (opts.foldl (fun a o => valuesAdd a o.Key o.Value) vs) k =
      valuesGet vs k ++ (opts.filter (fun o => o.Key = k)).map rpcOptions.Value := by
  induction opts with
  | nil => intro vs k; simp
  | cons o os ih =>
    intro vs k
    simp only [List.foldl_cons]
    rw [ih (valuesAdd vs o.Key o.Value) k, valuesGet_add]
    by_cases h : o.Key = k
    · simp [List.filter, h]
    · simp [List.filter, h]

theorem valuesGet_mem (vs : Values) (k : List Char)
    (h : valuesGet vs k ≠ []) : (k, valuesGet vs k) ∈ vs := by
  induction vs with
  | nil => simp [valuesGet] at h
  | cons p ps ih =>
    obtain ⟨k0, vs0⟩ := p
    by_cases hk : k0 = k
    · subst hk
      simp [valuesGet]
    · simp only [valuesGet, if_neg hk] at h ⊢
      exact List.mem_cons_of_mem _ (ih h)

theorem mem_querySegsOf (vs : Values) (k : List Char) (vals : List (List Char))
    (v : List Char) (h1 : (k, vals) ∈ vs) (h2 : v ∈ vals) :
    (queryEscape k ++ '=' :: queryEscape v) ∈ querySegsOf vs := by
  induction vs with
  | nil => simp at h1
  | cons p ps ih =>
    simp only [querySegsOf, List.mem_append]
    rcases List.mem_cons.mp h1 with h | h
    · left
      rw [← h]
      exact List.mem_map_of_mem _ h2
    · right
      exact ih h

theorem joinAmp_contains (xs : List (List Char)) (x : List Char) (h : x ∈ xs) :
    containsSub (joinAmp xs) x = true := by
  induction xs with
  | nil => simp at h
  | cons y ys ih =>
    rcases List.mem_cons.mp h with rfl | h2
    · cases ys with
      | nil =>
        have hx : joinAmp [x] = [] ++ (x ++ []) := by simp [joinAmp]
        rw [hx]
        exact containsSub_of_append _ _ _
      | cons z zs =>
        have hx : joinAmp (x :: z :: zs) = [] ++ (x ++ '&' :: joinAmp (z :: zs)) := by
          simp [joinAmp]
        rw [hx]
        exact containsSub_of_append _ _ _
    · cases ys with
      | nil => simp at h2
      | cons z zs =>
        have hj : joinAmp (y :: z :: zs) = y ++ '&' :: joinAmp (z :: zs) := rfl
        rw [hj]
        exact containsSub_append_right _ _ _
          (containsSub_cons_of '&' _ _ (ih h2))

/-- C8 counterexample: with distinct keys supplied in the order
`b`, `a`, the encoded query is `a=1&b=2` — `url.Values.Encode` sorts
by key, so insertion order among distinct keys is not preserved. -/
theorem constructQueryParams_order_counterexample :
    constructQueryParams
        [⟨"b".toList, "2".toList⟩, ⟨"a".toList, "1".toList⟩] =
      "a=1&b=2".toList ∧
    "a=1&b=2".toList ≠ "b=2&a=1".toList := by
  exact ⟨rfl, by decide⟩

/-- C8 (amended): for options whose keys and values need no escaping,
the encoded query of a request with no prior query contains every
`key=value` pair; duplicate keys are additive, each key holding all
its values in insertion order; the pairs are emitted sorted by key
(not in insertion order among distinct keys). -/
theorem constructQueryParams_spec (opts : List rpcOptions)
    (hsafe : ∀ o ∈ opts, safeQuery o.Key ∧ safeQuery o.Value) :
    (∀ o ∈ opts,
      containsSub (constructQueryParams opts) (o.Key ++ '=' :: o.Value) = true) ∧
    (∀ k, valuesGet (buildValues opts) k =
      (opts.filter (fun o => o.Key = k)).map rpcOptions.Value) ∧
    List.Sorted pairLe (sortByKey (buildValues opts)) := by
  have hget : ∀ k, valuesGet (buildValues opts) k =
      (opts.filter (fun o => o.Key = k)).map rpcOptions.Value := by
    intro k
    have h := valuesGet_fold opts [] k
    simpa [buildValues, valuesGet] using h
  refine ⟨?_, hget, List.sorted_insertionSort pairLe _⟩
  intro o ho
  have hvin : o.Value ∈ valuesGet (buildValues opts) o.Key := by
    rw [hget o.Key]
    refine List.mem_map_of_mem _ ?_
    rw [List.mem_filter]
    exact ⟨ho, by simp⟩
  have hne : valuesGet (buildValues opts) o.Key ≠ [] := by
    intro h
    rw [h] at hvin
    exact absurd hvin (List.not_mem_nil _)
  have hmem : (o.Key, valuesGet (buildValues opts) o.Key) ∈ buildValues opts :=
    valuesGet_mem _ _ hne
  have hsorted : (o.Key, valuesGet (buildValues opts) o.Key) ∈
      sortByKey (buildValues opts) := by
    unfold sortByKey
    rw [List.mem_insertionSort]
    exact hmem
  have hseg : (queryEscape o.Key ++ '=' :: queryEscape o.Value) ∈
      querySegsOf (sortByKey (buildValues opts)) :=
    mem_querySegsOf _ _ _ _ hsorted hvin
  rw [queryEscape_id _ (hsafe o ho).1, queryEscape_id _ (hsafe o ho).2] at hseg
  have h := joinAmp_contains _ _ hseg
  simpa [constructQueryParams, encodeValues] using h

theorem constructQueryParams_spec_witness :
    containsSub
      (constructQueryParams
        [⟨"b".toList, "2".toList⟩, ⟨"a".toList, "1".toList⟩])
      ("b".toList ++ '=' :: "2".toList) = true :=
  (constructQueryParams_spec
      [⟨"b".toList, "2".toList⟩, ⟨"a".toList, "1".toList⟩]
      (by decide)).1
    ⟨"b".toList, "2".toList⟩ (List.mem_cons_self _ _)
